import Mathlib

/-!
Verification of the `revault_tx` transaction engine.

The repository has two generations of the engine:
* `src/transactions.rs` — the newtype/PSBT generation: a `RevaultTransaction`
  trait with `add_signature` and `finalize` over a partially signed
  transaction, and a `RevaultInputSatisfier` giving the Miniscript
  satisfier queries (`lookup_sig`, `lookup_pkh_pk`, `lookup_pkh_sig`,
  `check_older`).  Embedded below in namespace `Transactions`.
* `src/transations.rs` — the tagged-union generation: an enum
  `RevaultTransaction` with runtime-checked constructors `new_unvault`,
  `new_spend`, `new_cancel`, `new_emergency`, and a satisfier with
  `check_after`.  Embedded below in namespace `Transations`.

External library primitives (hash160 of a public key, DER signature
parsing/serialization, `SigHashType::from_u32`/`as_u32`, public-key byte
serialization, Miniscript parsing/encoding) are parameters of the
embedding, collected in the structure `Transactions.Ext`; the claims hold
for every instantiation, and concrete instantiations witness them.
Machine integers (u32) are modelled as `Nat`; every value the code
manipulates fits in the type, no wraparound is exercised by any operation
modelled here (sequence fields and CSV values are compared, never added).
-/

namespace Revault

/-- Byte strings (`Vec<u8>`) are lists of naturals. -/
abbrev Bytes := List Nat

/-- Rust's `slice::split_last`: `Some((last, init))` for a non-empty
slice, `None` for the empty one. -/
def splitLast : Bytes → Option (Nat × Bytes)
  | [] => none
  | [x] => some (x, [])
  | x :: y :: xs =>
    match splitLast (y :: xs) with
    | some (lst, ini) => some (lst, x :: ini)
    | none => none

/-- `BTreeMap::get` over the sorted association-list model of
`BTreeMap<PublicKey, Vec<u8>>` (keys modelled as `Nat`). -/
def btLookup : List (Nat × Bytes) → Nat → Option Bytes
  | [], _ => none
  | (k', v') :: rest, k => if k = k' then some v' else btLookup rest k

/-- `BTreeMap::insert`: returns the updated map and the value previously
stored under the key, keeping keys sorted and unique. -/
def btInsert : List (Nat × Bytes) → Nat → Bytes → List (Nat × Bytes) × Option Bytes
  | [], k, v => ([(k, v)], none)
  | (k', v') :: rest, k, v =>
    if k < k' then ((k, v) :: (k', v') :: rest, none)
    else if k = k' then ((k, v) :: rest, some v')
    else
      let r := btInsert rest k v
      ((k', v') :: r.1, r.2)

/-- The `BTreeMap` representation invariant: keys strictly increasing. -/
def sortedMap (m : List (Nat × Bytes)) : Prop :=
  m.Pairwise (fun a b => a.1 < b.1)

/-- Number of entries of the map stored under key `k`. -/
def countKey : List (Nat × Bytes) → Nat → Nat
  | [], _ => 0
  | e :: rest, k => (if e.1 = k then 1 else 0) + countKey rest k

end Revault

namespace Transactions

open Revault

/-- `TxIn`'s sequence to set for the tx to be bip125-replaceable:
`RBF_SEQUENCE = u32::MAX - 2` (src/transactions.rs). -/
def RBF_SEQUENCE : Nat := 4294967293

/-- Modelled from the spec: a Miniscript policy tree, the shape the
satisfaction algorithm walks (§4.3, §4.4 step 3, §9 "Policy satisfaction
as generic tree evaluation").  The actual tree type lives in the external
`miniscript` crate, not under `src/`; the spec describes fragments
requiring a signature by key, a signature by key hash, a relative
timelock, and conjunctive/alternative spending conditions. -/
inductive Policy where
  | key (pk : Nat)
  | keyHash (h : Nat)
  | older (csv : Nat)
  | and (l r : Policy)
  | or (l r : Policy)
deriving DecidableEq

/-- External (rust-bitcoin / rust-miniscript) primitives the engine calls.
The engine's claims hold for every instantiation of these parameters. -/
structure Ext where
  /-- `PublicKey::to_pubkeyhash` (hash160 of the serialized key). -/
  hash160 : Nat → Nat
  /-- `secp256k1::Signature::from_der`: parse DER bytes, `None` on failure. -/
  derParse : Bytes → Option Bytes
  /-- `Signature::serialize_der().to_vec()` of a parsed signature. -/
  derSerialize : Bytes → Bytes
  /-- `SigHashType::from_u32(b).as_u32() as u8`: the flag byte as the
  library normalizes it when read back out of a raw signature. -/
  shtRound : Nat → Nat
  /-- `PublicKey::to_bytes`: consensus serialization of a public key. -/
  pkBytes : Nat → Bytes
  /-- `Miniscript::<Segwitv0>::parse` of a witness script. -/
  msParse : Bytes → Option Policy
  /-- `Miniscript::encode().into_bytes()`: the serialized witness script. -/
  msEncode : Policy → Bytes

/-- A script pubkey, by the shape `finalize` distinguishes:
`is_v0_p2wpkh` (carrying the pushed 20-byte hash), `is_v0_p2wsh`, or
anything else. -/
inductive ScriptPubKey where
  | p2wpkh (hash : Nat)
  | p2wsh
  | other
deriving DecidableEq

/-- `bitcoin::TxOut`: amount and script pubkey. -/
structure TxOutM where
  value : Nat
  script_pubkey : ScriptPubKey
deriving DecidableEq

/-- An input of the unsigned transaction skeleton: previous outpoint
(opaque) and the sequence field. -/
structure TxInM where
  previous_output : Nat
  sequence : Nat
deriving DecidableEq

/-- A PSBT input (`bitcoin::util::psbt::Input`), the fields the engine
reads and writes. -/
structure PsbtIn where
  partial_sigs : List (Nat × Bytes)
  witness_script : Option Bytes
  witness_utxo : Option TxOutM
  final_script_witness : Option (List Bytes)
deriving DecidableEq

/-- The signable-transaction record: the unsigned skeleton's inputs
(`global.unsigned_tx.input`) and the index-aligned PSBT inputs. -/
structure Psbt where
  tx_inputs : List TxInM
  inputs : List PsbtIn
deriving DecidableEq

/-- The engine's typed failures, one constructor per error site of
`add_signature` / `finalize` (the Rust code carries them all as
`Error::InputSatisfaction` / `Error::TransactionFinalisation` strings). -/
inductive Err where
  | inputOutOfBounds
  | inputCountMismatch
  | missingWitnessUtxo
  | unknownKeyForHash
  | missingSignatureForKey
  | missingWitnessScript
  | unparsableWitnessScript
  | satisfactionFailed
  | unsupportedPrevoutType
deriving DecidableEq

/-- `RevaultInputSatisfier`: a borrow of one input's signature map plus
that input's sequence field (src/transactions.rs:596). -/
structure RevaultInputSatisfier where
  sigmap : List (Nat × Bytes)
  sequence : Nat
deriving DecidableEq

/-- `Satisfier::lookup_pkh_pk` via the `pkhashmap` that
`RevaultInputSatisfier::new` builds by inserting `hash160 k ↦ k` for every
key of the signature map in order (a later key overwrites an earlier one
on a hash collision, hence `getLast?`). -/
def lookup_pkh_pk (E : Ext) (s : RevaultInputSatisfier) (keyhash : Nat) : Option Nat :=
  (((s.sigmap.map Prod.fst).filter (fun k => E.hash160 k = keyhash)).getLast?)

/-- `Satisfier::lookup_sig` (src/transactions.rs:624): fetch the raw
bytes stored for the key, split off the last byte as the sighash flag
(`None` if empty), parse the rest as a DER signature (`None` on
failure). -/
def lookup_sig (E : Ext) (s : RevaultInputSatisfier) (pk : Nat) : Option (Bytes × Nat) :=
  match btLookup s.sigmap pk with
  | none => none
  | some rawsig =>
    match splitLast rawsig with
    | none => none
    | some (flag, sigBytes) =>
      match E.derParse sigBytes with
      | none => none
      | some sig => some (sig, E.shtRound flag)

/-- `Satisfier::lookup_pkh_sig`: compose the two lookups. -/
def lookup_pkh_sig (E : Ext) (s : RevaultInputSatisfier) (keyhash : Nat) :
    Option (Nat × (Bytes × Nat)) :=
  match lookup_pkh_pk E s keyhash with
  | none => none
  | some key =>
    match lookup_sig E s key with
    | none => none
    | some sg => some (key, sg)

/-- `Satisfier::check_older` (src/transactions.rs:658):
`assert!(csv & (1 << 22) == 0); self.sequence >= csv`.  The `assert!` is a
process abort, modelled as `none`; `some b` is the returned boolean. -/
def RevaultInputSatisfier.check_older (s : RevaultInputSatisfier) (csv : Nat) : Option Bool :=
  if csv &&& (1 <<< 22) ≠ 0 then none
  else some (decide (s.sequence ≥ csv))

/-- Modelled from the spec: the generic policy-satisfaction algorithm
(§4.4 step 3, §9), which lives in the external `miniscript` crate.  A
pure recursive evaluator over the policy tree parameterized by the
satisfier queries: signature fragments yield their witness elements,
`older` runs `check_older`, `and` concatenates both satisfactions, `or`
returns the first satisfiable branch.  The outer `Option` propagates the
`check_older` abort; the inner `Option` is satisfaction failure. -/
def satisfyPolicy (E : Ext) (s : RevaultInputSatisfier) : Policy → Option (Option (List Bytes))
  | .key pk =>
    some (match lookup_sig E s pk with
          | some (sig, flag) => some [E.derSerialize sig ++ [flag]]
          | none => none)
  | .keyHash h =>
    some (match lookup_pkh_sig E s h with
          | some (k, sig, flag) => some [E.derSerialize sig ++ [flag], E.pkBytes k]
          | none => none)
  | .older csv =>
    match s.check_older csv with
    | none => none
    | some b => some (if b then some [] else none)
  | .and l r =>
    match satisfyPolicy E s l with
    | none => none
    | some none => some none
    | some (some wl) =>
      match satisfyPolicy E s r with
      | none => none
      | some none => some none
      | some (some wr) => some (some (wl ++ wr))
  | .or l r =>
    match satisfyPolicy E s l with
    | none => none
    | some (some wl) => some (some wl)
    | some none => satisfyPolicy E s r

/-- `RevaultTransaction::add_signature` (src/transactions.rs:38): bounds
check the input index, then insert into that input's `partial_sigs`,
returning the previous value for the key.  The record is returned
alongside the result (mutation is modelled by state passing). -/
def add_signature (p : Psbt) (input_index : Nat) (pubkey : Nat) (rawsig : Bytes) :
    Psbt × Except Err (Option Bytes) :=
  match p.inputs[input_index]? with
  | some psbtin =>
    let r := btInsert psbtin.partial_sigs pubkey rawsig
    ({ p with inputs := p.inputs.set input_index { psbtin with partial_sigs := r.1 } },
     .ok r.2)
  | none => (p, .error .inputOutOfBounds)

/-- One iteration of `finalize`'s loop (src/transactions.rs:70-168) for a
single PSBT input paired with its skeleton input's sequence.  `none` is a
propagated `check_older` abort; `some (.error e)` returns from `finalize`
with the input unchanged; `some (.ok pin)` is the input with its final
witness written. -/
def finalizeInput (E : Ext) (psbtin : PsbtIn) (sequence : Nat) : Option (Except Err PsbtIn) :=
  match psbtin.witness_utxo with
  | none => some (.error .missingWitnessUtxo)
  | some prev_txo =>
    let input_satisfier : RevaultInputSatisfier := ⟨psbtin.partial_sigs, sequence⟩
    match prev_txo.script_pubkey with
    | .p2wpkh hash =>
      some (match lookup_pkh_pk E input_satisfier hash with
        | none => .error .unknownKeyForHash
        | some pk =>
          match lookup_sig E input_satisfier pk with
          | none => .error .missingSignatureForKey
          | some (sig, flag) =>
            .ok { psbtin with
                  final_script_witness := some [E.derSerialize sig ++ [flag], E.pkBytes pk] })
    | .p2wsh =>
      match psbtin.witness_script with
      | none => some (.error .missingWitnessScript)
      | some script =>
        match E.msParse script with
        | none => some (.error .unparsableWitnessScript)
        | some prev_script =>
          match satisfyPolicy E input_satisfier prev_script with
          | none => none
          | some none => some (.error .satisfactionFailed)
          | some (some witness) =>
            some (.ok { psbtin with
                        final_script_witness := some (witness ++ [E.msEncode prev_script]) })
    | .other => some (.error .unsupportedPrevoutType)

/-- `finalize`'s loop over the zipped (PSBT input, sequence) pairs,
mutating in place and returning at the first per-input error: on error
the failing input and all later ones are returned unchanged while earlier
(already processed) inputs keep their freshly written witness. -/
def finalizeInputs (E : Ext) : List (PsbtIn × Nat) → Option (List PsbtIn × Option Err)
  | [] => some ([], none)
  | (pin, seq) :: rest =>
    match finalizeInput E pin seq with
    | none => none
    | some (.error e) => some (pin :: rest.map Prod.fst, some e)
    | some (.ok pin') =>
      match finalizeInputs E rest with
      | none => none
      | some (rest', err) => some (pin' :: rest', err)

/-- `RevaultTransaction::finalize` (src/transactions.rs:56): check the
PSBT-input/skeleton-input count, then run the loop.  Returns the record
as the call leaves it together with the error, if any; `none` is the
propagated `check_older` abort. -/
def finalize (E : Ext) (p : Psbt) : Option (Psbt × Option Err) :=
  if p.inputs.length ≠ p.tx_inputs.length then
    some (p, some .inputCountMismatch)
  else
    match finalizeInputs E (p.inputs.zip (p.tx_inputs.map TxInM.sequence)) with
    | none => none
    | some (ins, err) => some ({ p with inputs := ins }, err)

/-- All relative-timelock constants of a policy encode block counts
(bit 22, the seconds-based flag, unset). -/
def Policy.csvOk : Policy → Bool
  | .key _ => true
  | .keyHash _ => true
  | .older csv => csv &&& (1 <<< 22) = 0
  | .and l r => l.csvOk && r.csvOk
  | .or l r => l.csvOk && r.csvOk

/-- `csvOk` holds for whatever policy the witness script of an input
parses to (vacuously when there is no script or it does not parse). -/
def optPolicyOk (E : Ext) : Option Bytes → Bool
  | none => true
  | some ws =>
    match E.msParse ws with
    | none => true
    | some pol => pol.csvOk

/-- Modelled from the spec: the conjunction of key fragments for a
non-empty participant set, as the policy compiler lays a multi-party
quorum out (§8 *Timelock gating*, glossary). -/
def allKeys (k : Nat) (ks : List Nat) : Policy :=
  ks.foldl (fun p k' => .and p (.key k')) (.key k)

/-- Modelled from the spec: the unvault output's spending policy
(glossary: "spendable by managers+cosigners (normal path) or by the full
participant set (cancel/emergency path)", the normal path gated by the
relative timelock). -/
def unvaultPolicy (stk : Nat) (stks : List Nat) (mgr : Nat) (mgrsCos : List Nat)
    (csv : Nat) : Policy :=
  .or (allKeys stk stks) (.and (allKeys mgr mgrsCos) (.older csv))

/-- A single-input signable record, as built for a one-prevout
transaction. -/
def onePsbt (sigs : List (Nat × Bytes)) (ws : Option Bytes) (utxo : Option TxOutM)
    (fw : Option (List Bytes)) (op seq : Nat) : Psbt :=
  ⟨[⟨op, seq⟩], [⟨sigs, ws, utxo, fw⟩]⟩

end Transactions

namespace Transations

/-- `RBF_SEQUENCE = u32::MAX - 2` (src/transations.rs:18). -/
def RBF_SEQUENCE : Nat := 4294967293

/-- `TxIn::default()`'s sequence field, `u32::MAX` (rust-bitcoin). -/
def DEFAULT_SEQUENCE : Nat := 4294967295

/-- `RevaultPrevout` (src/transations.rs:41): a typed previous outpoint
(outpoints opaque, modelled as `Nat`). -/
inductive RevaultPrevout where
  | vaultPrevout (o : Nat)
  | unvaultPrevout (o : Nat)
  | feeBumpPrevout (o : Nat)
  | cpfpPrevout (o : Nat)
deriving DecidableEq

/-- `RevaultTxOut` (src/transations.rs:22): a typed transaction output
(the carried `TxOut` opaque, modelled as `Nat`). -/
inductive RevaultTxOut where
  | vaultTxOut (t : Nat)
  | unvaultTxOut (t : Nat)
  | spendTxOut (t : Nat)
  | emergencyTxOut (t : Nat)
  | cpfpTxOut (t : Nat)
deriving DecidableEq

/-- A skeleton input: previous outpoint and sequence (the other `TxIn`
fields are never set by these constructors). -/
structure TxIn where
  previous_output : Nat
  sequence : Nat
deriving DecidableEq

/-- `bitcoin::Transaction`, the fields the constructors fill. -/
structure Transaction where
  version : Nat
  lock_time : Nat
  input : List TxIn
  output : List Nat
deriving DecidableEq

/-- `RevaultTransaction` (src/transations.rs:62): the tagged union of
transaction kinds. -/
inductive RevaultTransaction where
  | vaultTransaction (tx : Transaction)
  | unvaultTransaction (tx : Transaction)
  | spendTransaction (tx : Transaction)
  | cancelTransaction (tx : Transaction)
  | emergencyTransaction (tx : Transaction)
deriving DecidableEq

/-- The skeleton inside any variant. -/
def RevaultTransaction.txInputs : RevaultTransaction → List TxIn
  | .vaultTransaction tx | .unvaultTransaction tx | .spendTransaction tx
  | .cancelTransaction tx | .emergencyTransaction tx => tx.input

/-- `RevaultError::TransactionCreation` is the only error these
constructors produce. -/
inductive RevaultError where
  | transactionCreation
deriving DecidableEq

/-- `RevaultTransaction::new_unvault` (src/transations.rs:82): the Rust
signature takes `&[RevaultPrevout; 1]` and `&[RevaultTxOut; 2]`, so the
one prevout and the two txouts are direct arguments here.  The vault
input is built with `..Default::default()`, hence sequence `u32::MAX`. -/
def new_unvault (prevout : RevaultPrevout) (txout0 txout1 : RevaultTxOut) :
    Except RevaultError RevaultTransaction :=
  match prevout, txout0, txout1 with
  | .vaultPrevout vault_prevout, .unvaultTxOut unvault_txout, .cpfpTxOut cpfp_txout =>
    .ok (.unvaultTransaction ⟨2, 0, [⟨vault_prevout, DEFAULT_SEQUENCE⟩],
                              [unvault_txout, cpfp_txout]⟩)
  | _, _, _ => .error .transactionCreation

/-- The first loop of `new_spend` (src/transations.rs:117): every prevout
must be an `UnvaultPrevout`, each becoming an input with the
caller-supplied CSV value as sequence; any other kind errors. -/
def spendTxIns (csv_value : Nat) : List RevaultPrevout → Except RevaultError (List TxIn)
  | [] => .ok []
  | .unvaultPrevout prev :: rest =>
    match spendTxIns csv_value rest with
    | .ok txins => .ok (⟨prev, csv_value⟩ :: txins)
    | .error e => .error e
  | _ :: _ => .error .transactionCreation

/-- The second loop of `new_spend` (src/transations.rs:134): every output
must be a `SpendTxOut` or a `VaultTxOut` (the change); any other kind
errors. -/
def spendTxOuts : List RevaultTxOut → Except RevaultError (List Nat)
  | [] => .ok []
  | .spendTxOut txout :: rest =>
    match spendTxOuts rest with
    | .ok txouts => .ok (txout :: txouts)
    | .error e => .error e
  | .vaultTxOut txout :: rest =>
    match spendTxOuts rest with
    | .ok txouts => .ok (txout :: txouts)
    | .error e => .error e
  | _ :: _ => .error .transactionCreation

/-- `RevaultTransaction::new_spend` (src/transations.rs:112). -/
def new_spend (prevouts : List RevaultPrevout) (outputs : List RevaultTxOut)
    (csv_value : Nat) : Except RevaultError RevaultTransaction :=
  match spendTxIns csv_value prevouts with
  | .error e => .error e
  | .ok txins =>
    match spendTxOuts outputs with
    | .error e => .error e
    | .ok txouts => .ok (.spendTransaction ⟨2, 0, txins, txouts⟩)

/-- `RevaultTransaction::new_cancel` (src/transations.rs:159): one
unvault prevout, optionally followed by a fee-bump prevout, and exactly
one vault output; every input's sequence is `RBF_SEQUENCE`. -/
def new_cancel (prevouts : List RevaultPrevout) (txouts : List RevaultTxOut) :
    Except RevaultError RevaultTransaction :=
  match prevouts, txouts with
  | [.unvaultPrevout p], [.vaultTxOut vault_txout] =>
    .ok (.cancelTransaction ⟨2, 0, [⟨p, RBF_SEQUENCE⟩], [vault_txout]⟩)
  | [.unvaultPrevout p, .feeBumpPrevout f], [.vaultTxOut vault_txout] =>
    .ok (.cancelTransaction ⟨2, 0, [⟨p, RBF_SEQUENCE⟩, ⟨f, RBF_SEQUENCE⟩], [vault_txout]⟩)
  | _, _ => .error .transactionCreation

/-- `RevaultTransaction::new_emergency` (src/transations.rs:203): a vault
or unvault prevout (the vault-emergency and unvault-emergency cases),
optionally followed by a fee-bump prevout, and exactly one emergency
output; every input's sequence is `RBF_SEQUENCE`. -/
def new_emergency (prevouts : List RevaultPrevout) (txouts : List RevaultTxOut) :
    Except RevaultError RevaultTransaction :=
  match prevouts, txouts with
  | [.vaultPrevout p], [.emergencyTxOut emer_txout] =>
    .ok (.emergencyTransaction ⟨2, 0, [⟨p, RBF_SEQUENCE⟩], [emer_txout]⟩)
  | [.vaultPrevout p, .feeBumpPrevout f], [.emergencyTxOut emer_txout] =>
    .ok (.emergencyTransaction ⟨2, 0, [⟨p, RBF_SEQUENCE⟩, ⟨f, RBF_SEQUENCE⟩], [emer_txout]⟩)
  | [.unvaultPrevout p], [.emergencyTxOut emer_txout] =>
    .ok (.emergencyTransaction ⟨2, 0, [⟨p, RBF_SEQUENCE⟩], [emer_txout]⟩)
  | [.unvaultPrevout p, .feeBumpPrevout f], [.emergencyTxOut emer_txout] =>
    .ok (.emergencyTransaction ⟨2, 0, [⟨p, RBF_SEQUENCE⟩, ⟨f, RBF_SEQUENCE⟩], [emer_txout]⟩)
  | _, _ => .error .transactionCreation

/-- `check_after` of the tagged-union generation's satisfier
(src/transations.rs:374): strict equality against the input's sequence. -/
def check_after (sequence csv : Nat) : Bool :=
  sequence = csv

/-- The prevout kind `new_spend` accepts. -/
def isUnvaultPrevout : RevaultPrevout → Bool
  | .unvaultPrevout _ => true
  | _ => false

/-- The output kinds `new_spend` accepts (destination or change). -/
def isSpendOrChangeTxOut : RevaultTxOut → Bool
  | .spendTxOut _ => true
  | .vaultTxOut _ => true
  | _ => false

/-- The prevout/output shapes `new_unvault` accepts. -/
def unvaultKindsOk (p : RevaultPrevout) (t0 t1 : RevaultTxOut) : Bool :=
  (match p with | .vaultPrevout _ => true | _ => false) &&
  (match t0 with | .unvaultTxOut _ => true | _ => false) &&
  (match t1 with | .cpfpTxOut _ => true | _ => false)

/-- The prevout/output shapes `new_cancel` accepts: an unvault prevout,
an optional fee-bump prevout, one vault output. -/
def cancelKindsOk (ps : List RevaultPrevout) (ts : List RevaultTxOut) : Bool :=
  (match ps with
   | [.unvaultPrevout _] => true
   | [.unvaultPrevout _, .feeBumpPrevout _] => true
   | _ => false) &&
  (match ts with | [.vaultTxOut _] => true | _ => false)

/-- The prevout/output shapes `new_emergency` accepts: a vault or unvault
prevout, an optional fee-bump prevout, one emergency output. -/
def emergencyKindsOk (ps : List RevaultPrevout) (ts : List RevaultTxOut) : Bool :=
  (match ps with
   | [.vaultPrevout _] => true
   | [.vaultPrevout _, .feeBumpPrevout _] => true
   | [.unvaultPrevout _] => true
   | [.unvaultPrevout _, .feeBumpPrevout _] => true
   | _ => false) &&
  (match ts with | [.emergencyTxOut _] => true | _ => false)

end Transations

namespace Transactions

open Revault

/-- A concrete instantiation of the external primitives, used to evaluate
the theorems on closed inputs: the hash and DER codecs are identities,
public keys serialize to a single byte, no script parses. -/
def extId : Ext :=
  { hash160 := fun k => k
    derParse := fun b => some b
    derSerialize := fun b => b
    shtRound := fun b => b
    pkBytes := fun k => [k]
    msParse := fun _ => none
    msEncode := fun _ => [] }

/-- A satisfiable pay-to-witness-pubkey-hash input under `extId`: the map
holds a well-formed raw signature (DER part `[9]`, flag byte `1`) for key
`5`, whose `extId`-hash matches the script's hash. -/
def pinSatisfiable : PsbtIn := ⟨[(5, [9, 1])], none, some ⟨360, .p2wpkh 5⟩, none⟩

/-- An input `finalize` cannot satisfy: a pay-to-witness-pubkey-hash
previous output whose signature map holds no key hashing to the script
hash (the repository's own test exercises exactly this on the fee-bump
input of the unvault-emergency transaction). -/
def pinNoSig : PsbtIn := ⟨[], none, some ⟨100, .p2wpkh 9⟩, none⟩

/-- A two-input record whose first input is satisfiable and whose second
cannot be satisfied (no signature for its key hash). -/
def psbtHalfGood : Psbt := ⟨[⟨0, 0⟩, ⟨1, 0⟩], [pinSatisfiable, pinNoSig]⟩

/-- The record `psbtHalfGood` as the failed `finalize` call leaves it: the
first input's final witness freshly written, the second untouched. -/
def psbtHalfGoodAfter : Psbt :=
  ⟨[⟨0, 0⟩, ⟨1, 0⟩],
   [⟨[(5, [9, 1])], none, some ⟨360, .p2wpkh 5⟩, some [[9, 1], [5]]⟩, pinNoSig]⟩

/-- `extId` with a Miniscript parser returning the concrete unvault
policy `or(key 1, and(and(key 2, key 3), older 5))`: one stakeholder
(key 1), one manager (key 2), one cosigner (key 3), CSV value 5. -/
def extUnvault : Ext :=
  { extId with
    msParse := fun _ => some (unvaultPolicy 1 [] 2 [3] 5)
    msEncode := fun _ => [80] }

/-- The manager and cosigner signatures (keys 2 and 3) for `extUnvault`,
well-formed under `extId`'s codecs; the stakeholder key 1 has none. -/
def sigsQuorum : List (Nat × Bytes) := [(2, [9, 1]), (3, [9, 1])]

end Transactions


namespace Revault

theorem btLookup_eq_none_of_lt {m : List (Nat × Bytes)} {k : Nat}
    (h : ∀ e ∈ m, k < e.1) : btLookup m k = none := by
  induction m with
  | nil => rfl
  | cons e rest ih =>
    obtain ⟨a, b⟩ := e
    have hk : k ≠ a := Nat.ne_of_lt (h (a, b) (by simp))
    simp only [btLookup, if_neg hk]
    exact ih fun e' he' => h e' (List.mem_cons_of_mem _ he')

theorem btInsert_snd {m : List (Nat × Bytes)} (k : Nat) (v : Bytes)
    (hs : sortedMap m) : (btInsert m k v).2 = btLookup m k := by
  induction m with
  | nil => rfl
  | cons e rest ih =>
    obtain ⟨a, b⟩ := e
    obtain ⟨hlt, hrest⟩ := List.pairwise_cons.mp hs
    by_cases h1 : k < a
    · have hk : k ≠ a := Nat.ne_of_lt h1
      simp only [btInsert, if_pos h1, btLookup, if_neg hk]
      exact (btLookup_eq_none_of_lt fun e' he' => Nat.lt_trans h1 (hlt e' he')).symm
    · by_cases h2 : k = a
      · simp only [btInsert, if_neg h1, if_pos h2, btLookup, if_pos h2]
      · simp only [btInsert, if_neg h1, if_neg h2, btLookup, if_neg h2]
        exact ih hrest

theorem btInsert_lookup_self (m : List (Nat × Bytes)) (k : Nat) (v : Bytes) :
    btLookup (btInsert m k v).1 k = some v := by
  induction m with
  | nil => simp [btInsert, btLookup]
  | cons e rest ih =>
    obtain ⟨a, b⟩ := e
    by_cases h1 : k < a
    · simp [btInsert, if_pos h1, btLookup]
    · by_cases h2 : k = a
      · simp [btInsert, if_neg h1, if_pos h2, btLookup]
      · simp only [btInsert, if_neg h1, if_neg h2, btLookup, if_neg h2]
        exact ih

theorem btInsert_lookup_ne (m : List (Nat × Bytes)) {k k' : Nat} (v : Bytes)
    (hne : k' ≠ k) : btLookup (btInsert m k v).1 k' = btLookup m k' := by
  induction m with
  | nil => simp [btInsert, btLookup, if_neg hne]
  | cons e rest ih =>
    obtain ⟨a, b⟩ := e
    by_cases h1 : k < a
    · simp only [btInsert, if_pos h1, btLookup, if_neg hne]
    · by_cases h2 : k = a
      · simp only [btInsert, if_neg h1, if_pos h2, btLookup, if_neg hne]
        exact (if_neg fun hh => hne (hh.trans h2.symm)).symm
      · simp only [btInsert, if_neg h1, if_neg h2, btLookup]
        by_cases h3 : k' = a
        · simp only [if_pos h3]
        · simp only [if_neg h3]
          exact ih

theorem btInsert_mem_key {m : List (Nat × Bytes)} {k : Nat} {v : Bytes}
    {e : Nat × Bytes} (he : e ∈ (btInsert m k v).1) : e.1 = k ∨ e ∈ m := by
  induction m with
  | nil =>
    simp only [btInsert, List.mem_singleton] at he
    left; rw [he]
  | cons f rest ih =>
    obtain ⟨a, b⟩ := f
    by_cases h1 : k < a
    · simp only [btInsert, if_pos h1, List.mem_cons] at he
      rcases he with h | h
      · left; rw [h]
      · right; exact List.mem_cons.mpr h
    · by_cases h2 : k = a
      · simp only [btInsert, if_neg h1, if_pos h2, List.mem_cons] at he
        rcases he with h | h
        · left; rw [h]
        · right; exact List.mem_cons_of_mem _ h
      · simp only [btInsert, if_neg h1, if_neg h2, List.mem_cons] at he
        rcases he with h | h
        · right; exact List.mem_cons.mpr (Or.inl h)
        · rcases ih h with h' | h'
          · left; exact h'
          · right; exact List.mem_cons_of_mem _ h'

theorem btInsert_sorted {m : List (Nat × Bytes)} (k : Nat) (v : Bytes)
    (hs : sortedMap m) : sortedMap (btInsert m k v).1 := by
  induction m with
  | nil => simp [btInsert, sortedMap]
  | cons f rest ih =>
    obtain ⟨a, b⟩ := f
    obtain ⟨hlt, hrest⟩ := List.pairwise_cons.mp hs
    by_cases h1 : k < a
    · simp only [btInsert, if_pos h1]
      refine List.Pairwise.cons ?_ hs
      intro e he
      rcases List.mem_cons.mp he with h | h
      · rw [h]; exact h1
      · exact Nat.lt_trans h1 (hlt e h)
    · by_cases h2 : k = a
      · simp only [btInsert, if_neg h1, if_pos h2]
        exact List.Pairwise.cons (fun e he => h2 ▸ hlt e he) hrest
      · simp only [btInsert, if_neg h1, if_neg h2]
        refine List.Pairwise.cons ?_ (ih hrest)
        intro e he
        rcases btInsert_mem_key he with h | h
        · rw [h]
          exact Nat.lt_of_le_of_ne (Nat.le_of_not_lt h1) fun hh => h2 hh.symm
        · exact hlt e h

theorem countKey_eq_zero_of_lt {m : List (Nat × Bytes)} {k : Nat}
    (h : ∀ e ∈ m, k < e.1) : countKey m k = 0 := by
  induction m with
  | nil => rfl
  | cons e rest ih =>
    have hk : ¬ (e.1 = k) := Nat.ne_of_gt (h e (by simp))
    simp only [countKey, if_neg hk, Nat.zero_add]
    exact ih fun e' he' => h e' (List.mem_cons_of_mem _ he')

theorem btInsert_countKey {m : List (Nat × Bytes)} (k : Nat) (v : Bytes)
    (hs : sortedMap m) : countKey (btInsert m k v).1 k = 1 := by
  induction m with
  | nil => simp [btInsert, countKey]
  | cons f rest ih =>
    obtain ⟨a, b⟩ := f
    obtain ⟨hlt, hrest⟩ := List.pairwise_cons.mp hs
    by_cases h1 : k < a
    · have h0 : countKey ((a, b) :: rest) k = 0 := by
        refine countKey_eq_zero_of_lt fun e he => ?_
        rcases List.mem_cons.mp he with h | h
        · rw [h]; exact h1
        · exact Nat.lt_trans h1 (hlt e h)
      simp only [btInsert, if_pos h1]
      show (if k = k then 1 else 0) + countKey ((a, b) :: rest) k = 1
      rw [if_pos rfl, h0]
    · by_cases h2 : k = a
      · have h0 : countKey rest k = 0 :=
          countKey_eq_zero_of_lt fun e he => h2 ▸ hlt e he
        simp only [btInsert, if_neg h1, if_pos h2]
        show (if k = k then 1 else 0) + countKey rest k = 1
        rw [if_pos rfl, h0]
      · have hk : ¬ (a = k) := fun hh => h2 hh.symm
        simp only [btInsert, if_neg h1, if_neg h2, countKey, if_neg hk, Nat.zero_add]
        exact ih hrest

theorem splitLast_append (bs : Bytes) (b : Nat) : splitLast (bs ++ [b]) = some (b, bs) := by
  induction bs with
  | nil => rfl
  | cons x xs ih =>
    cases xs with
    | nil => rfl
    | cons y ys =>
      simp only [List.cons_append] at ih ⊢
      simp only [splitLast, ih]

end Revault

namespace Transactions

open Revault

theorem finalizeInput_ok_frame {E : Ext} {pin pin' : PsbtIn} {seq : Nat}
    (h : finalizeInput E pin seq = some (.ok pin')) :
    pin'.partial_sigs = pin.partial_sigs ∧ pin'.witness_script = pin.witness_script ∧
    pin'.witness_utxo = pin.witness_utxo := by
  obtain ⟨sigs, ws, wu, fw⟩ := pin
  rcases wu with _ | ⟨v, spk⟩
  · simp [finalizeInput] at h
  · rcases spk with hash | _ | _
    · simp only [finalizeInput, Option.some_inj] at h
      rcases hpk : lookup_pkh_pk E ⟨sigs, seq⟩ hash with _ | pk
      · simp only [hpk] at h
        exact Except.noConfusion h
      · simp only [hpk] at h
        rcases hsg : lookup_sig E ⟨sigs, seq⟩ pk with _ | ⟨sg, flag⟩
        · simp only [hsg] at h
          exact Except.noConfusion h
        · simp only [hsg] at h
          rw [← Except.ok.inj h]
          exact ⟨rfl, rfl, rfl⟩
    · rcases ws with _ | script
      · simp [finalizeInput] at h
      · simp only [finalizeInput] at h
        rcases hmp : E.msParse script with _ | pol
        · simp [hmp] at h
        · simp only [hmp] at h
          rcases hsp : satisfyPolicy E ⟨sigs, seq⟩ pol with _ | r
          · simp only [hsp] at h
            exact Option.noConfusion h
          · simp only [hsp] at h
            rcases r with _ | w
            · simp at h
            · simp only [Option.some_inj] at h
              rw [← Except.ok.inj h]
              exact ⟨rfl, rfl, rfl⟩
    · simp [finalizeInput] at h

theorem satisfy_foldlAnd_none (E : Ext) (s : RevaultInputSatisfier) (ks : List Nat)
    (p : Policy) (h : satisfyPolicy E s p = some none) :
    satisfyPolicy E s (ks.foldl (fun q k' => .and q (.key k')) p) = some none := by
  induction ks generalizing p with
  | nil => exact h
  | cons k ks ih =>
    simp only [List.foldl_cons]
    exact ih _ (by simp only [satisfyPolicy, h])

theorem satisfy_foldlAnd_some (E : Ext) (s : RevaultInputSatisfier) (ks : List Nat)
    (p : Policy) (w : List Bytes)
    (hp : satisfyPolicy E s p = some (some w))
    (hks : ∀ k ∈ ks, (lookup_sig E s k).isSome) :
    ∃ w', satisfyPolicy E s (ks.foldl (fun q k' => .and q (.key k')) p) = some (some w') := by
  induction ks generalizing p w with
  | nil => exact ⟨w, hp⟩
  | cons k ks ih =>
    simp only [List.foldl_cons]
    obtain ⟨⟨sig, flag⟩, hsg⟩ := Option.isSome_iff_exists.mp (hks k (by simp))
    refine ih _ (w ++ [E.derSerialize sig ++ [flag]]) ?_
      (fun k' hk' => hks k' (List.mem_cons_of_mem _ hk'))
    simp only [satisfyPolicy, hp, hsg]

theorem satisfyPolicy_isSome_of_csvOk (E : Ext) (s : RevaultInputSatisfier) (p : Policy)
    (h : p.csvOk = true) : (satisfyPolicy E s p).isSome := by
  induction p with
  | key pk => simp [satisfyPolicy]
  | keyHash kh => simp [satisfyPolicy]
  | older csv =>
    simp only [Policy.csvOk, decide_eq_true_eq] at h
    have h4 : csv &&& 4194304 = 0 := by simpa using h
    simp [satisfyPolicy, RevaultInputSatisfier.check_older, h4]
  | and l r ihl ihr =>
    simp only [Policy.csvOk, Bool.and_eq_true] at h
    obtain ⟨sl, hsl⟩ := Option.isSome_iff_exists.mp (ihl h.1)
    obtain ⟨sr, hsr⟩ := Option.isSome_iff_exists.mp (ihr h.2)
    cases sl <;> cases sr <;> simp [satisfyPolicy, hsl, hsr]
  | or l r ihl ihr =>
    simp only [Policy.csvOk, Bool.and_eq_true] at h
    obtain ⟨sl, hsl⟩ := Option.isSome_iff_exists.mp (ihl h.1)
    cases sl <;> simp [satisfyPolicy, hsl, ihr h.2]

theorem finalizeInput_isSome (E : Ext) (pin : PsbtIn) (seq : Nat)
    (h : optPolicyOk E pin.witness_script = true) : (finalizeInput E pin seq).isSome := by
  obtain ⟨sigs, ws, wu, fw⟩ := pin
  rcases wu with _ | ⟨v, spk⟩
  · simp [finalizeInput]
  · rcases spk with hash | _ | _
    · simp [finalizeInput]
    · rcases ws with _ | script
      · simp [finalizeInput]
      · simp only [optPolicyOk] at h
        rcases hmp : E.msParse script with _ | pol
        · simp [finalizeInput, hmp]
        · simp only [hmp] at h
          obtain ⟨r, hr⟩ := Option.isSome_iff_exists.mp
            (satisfyPolicy_isSome_of_csvOk E ⟨sigs, seq⟩ pol h)
          rcases r with _ | w <;> simp [finalizeInput, hmp, hr]
    · simp [finalizeInput]

theorem finalizeInputs_isSome (E : Ext) (l : List (PsbtIn × Nat))
    (h : ∀ e ∈ l, optPolicyOk E e.1.witness_script = true) :
    (finalizeInputs E l).isSome := by
  induction l with
  | nil => simp [finalizeInputs]
  | cons e rest ih =>
    obtain ⟨pin, seq⟩ := e
    obtain ⟨r, hr⟩ := Option.isSome_iff_exists.mp
      (finalizeInput_isSome E pin seq (h (pin, seq) (List.mem_cons_self _ _)))
    cases r with
    | error err => simp [finalizeInputs, hr]
    | ok pin' =>
      obtain ⟨r2, hr2⟩ := Option.isSome_iff_exists.mp
        (ih fun e he => h e (List.mem_cons_of_mem _ he))
      obtain ⟨rl, rerr⟩ := r2
      simp [finalizeInputs, hr, hr2]

theorem finalizeInputs_error_spec {E : Ext} {l : List (PsbtIn × Nat)} {l' : List PsbtIn}
    {e : Err} (h : finalizeInputs E l = some (l', some e)) :
    ∃ i, i < l.length ∧
      (∀ j, i ≤ j → l'[j]? = (l.map Prod.fst)[j]?) ∧
      (∃ pin seq, l[i]? = some (pin, seq) ∧ finalizeInput E pin seq = some (.error e)) ∧
      (∀ j, j < i → ∃ pin seq pin', l[j]? = some (pin, seq) ∧
        finalizeInput E pin seq = some (.ok pin') ∧ l'[j]? = some pin') := by
  induction l generalizing l' with
  | nil => simp [finalizeInputs] at h
  | cons hd rest ih =>
    obtain ⟨pin, seq⟩ := hd
    rw [finalizeInputs] at h
    rcases hr : finalizeInput E pin seq with _ | r
    · rw [hr] at h; exact absurd h (by simp)
    · rw [hr] at h
      rcases r with e' | pin'
      · simp only [Option.some.injEq, Prod.mk.injEq] at h
        obtain ⟨hl', rfl⟩ := h
        refine ⟨0, by simp, ?_, ⟨pin, seq, by simp, hr⟩, by omega⟩
        intro j _
        rw [← hl']
        simp [List.map_cons]
      · rcases hr2 : finalizeInputs E rest with _ | r2
        · rw [hr2] at h; exact absurd h (by simp)
        · rw [hr2] at h
          obtain ⟨rest', err⟩ := r2
          simp only [Option.some.injEq, Prod.mk.injEq] at h
          obtain ⟨hl', herr⟩ := h
          subst herr
          obtain ⟨i, hi, hsuf, hfail, hpre⟩ := ih hr2
          refine ⟨i + 1, by simpa using hi, ?_, ?_, ?_⟩
          · intro j hj
            obtain ⟨j', rfl⟩ : ∃ j', j = j' + 1 := ⟨j - 1, by omega⟩
            rw [← hl']
            simp only [List.map_cons, List.getElem?_cons_succ]
            exact hsuf j' (by omega)
          · obtain ⟨pf, sf, hat, herr2⟩ := hfail
            exact ⟨pf, sf, by simpa using hat, herr2⟩
          · intro j hj
            cases j with
            | zero => exact ⟨pin, seq, pin', by simp, hr, by rw [← hl']; simp⟩
            | succ j' =>
              obtain ⟨pa, sa, pa', hat, hok, hat'⟩ := hpre j' (by omega)
              exact ⟨pa, sa, pa', by simpa using hat, hok, by rw [← hl']; simpa using hat'⟩

end Transactions

namespace Transactions

open Revault

/-- What one in-bounds `add_signature` call does to the record: the result
and the updated input at the written index. -/
theorem add_signature_getElem {p : Psbt} {i : Nat} {pin : PsbtIn} (pk : Nat) (raw : Bytes)
    (hpin : p.inputs[i]? = some pin) :
    (add_signature p i pk raw).2 = .ok (btInsert pin.partial_sigs pk raw).2 ∧
    (add_signature p i pk raw).1.inputs[i]? =
      some { pin with partial_sigs := (btInsert pin.partial_sigs pk raw).1 } := by
  have hlt : i < p.inputs.length := (List.getElem?_eq_some.mp hpin).1
  constructor
  · simp only [add_signature, hpin]
  · simp only [add_signature, hpin]
    rw [List.getElem?_set_self]
    exact hlt

/-- C4: `add_signature(input_index, public_key, raw_signature)` returns the
out-of-bounds error and leaves the record untouched when `input_index` is not
below the record's input count; otherwise it returns the signature previously
stored for that key (`none` if there was none, silent overwrite), and the only
change is to input `input_index`'s signature map, which now stores
`raw_signature` under `public_key` with every other key, field and input
unchanged. -/
theorem C4_add_signature_bounds_insert (p : Psbt) (i pk : Nat) (raw : Bytes)
    (pin : PsbtIn) :
    (p.inputs.length ≤ i → add_signature p i pk raw = (p, .error .inputOutOfBounds)) ∧
    (p.inputs[i]? = some pin → sortedMap pin.partial_sigs →
      (add_signature p i pk raw).2 = .ok (btLookup pin.partial_sigs pk) ∧
      ∃ pin2, (add_signature p i pk raw).1.inputs[i]? = some pin2 ∧
        btLookup pin2.partial_sigs pk = some raw ∧
        (∀ k, k ≠ pk → btLookup pin2.partial_sigs k = btLookup pin.partial_sigs k) ∧
        pin2.witness_script = pin.witness_script ∧
        pin2.witness_utxo = pin.witness_utxo ∧
        pin2.final_script_witness = pin.final_script_witness ∧
        (∀ j, j ≠ i → (add_signature p i pk raw).1.inputs[j]? = p.inputs[j]?) ∧
        (add_signature p i pk raw).1.tx_inputs = p.tx_inputs) := by
  constructor
  · intro hle
    simp [add_signature, List.getElem?_eq_none hle]
  · intro hpin hs
    have hlt : i < p.inputs.length := (List.getElem?_eq_some.mp hpin).1
    constructor
    · simp only [add_signature, hpin]
      rw [btInsert_snd pk raw hs]
    · refine ⟨{ pin with partial_sigs := (btInsert pin.partial_sigs pk raw).1 },
        ?_, btInsert_lookup_self _ _ _, fun k hk => btInsert_lookup_ne _ _ hk,
        rfl, rfl, rfl, ?_, ?_⟩
      · simp only [add_signature, hpin]
        rw [List.getElem?_set_self]
        exact hlt
      · intro j hj
        simp only [add_signature, hpin]
        exact List.getElem?_set_ne fun hh => hj hh.symm
      · simp [add_signature, hpin]

/-- C9: inserting the same (key, signature) twice through `add_signature`
returns the previously stored value on the first call and `some raw` on the
second, leaving that input's signature map with exactly one entry for the key,
mapping it to `raw`. -/
theorem C9_idempotent_signature_insertion (p : Psbt) (i pk : Nat) (raw : Bytes)
    (pin : PsbtIn) (hpin : p.inputs[i]? = some pin) (hs : sortedMap pin.partial_sigs) :
    (add_signature p i pk raw).2 = .ok (btLookup pin.partial_sigs pk) ∧
    (add_signature (add_signature p i pk raw).1 i pk raw).2 = .ok (some raw) ∧
    ∃ pin2,
      (add_signature (add_signature p i pk raw).1 i pk raw).1.inputs[i]? = some pin2 ∧
      countKey pin2.partial_sigs pk = 1 ∧
      btLookup pin2.partial_sigs pk = some raw := by
  obtain ⟨hr1, h1⟩ := add_signature_getElem pk raw hpin
  obtain ⟨hr2, h2⟩ := add_signature_getElem pk raw h1
  have hs1 : sortedMap (btInsert pin.partial_sigs pk raw).1 := btInsert_sorted pk raw hs
  refine ⟨?_, ?_, ?_⟩
  · rw [hr1, btInsert_snd pk raw hs]
  · rw [hr2, btInsert_snd pk raw hs1, btInsert_lookup_self]
  · exact ⟨_, h2, btInsert_countKey pk raw hs1, btInsert_lookup_self _ _ _⟩

/-- C9 witness: the theorem applied to a concrete one-input record holding a
prior signature `[1]` for key `4`, re-inserting `[2, 1]` twice. -/
theorem C9_witness :
    (add_signature ⟨[⟨0, 0⟩], [⟨[(4, [1])], none, none, none⟩]⟩ 0 4 [2, 1]).2 =
      .ok (btLookup [(4, [1])] 4) ∧
    (add_signature (add_signature ⟨[⟨0, 0⟩], [⟨[(4, [1])], none, none, none⟩]⟩
        0 4 [2, 1]).1 0 4 [2, 1]).2 = .ok (some [2, 1]) ∧
    ∃ pin2,
      (add_signature (add_signature ⟨[⟨0, 0⟩], [⟨[(4, [1])], none, none, none⟩]⟩
          0 4 [2, 1]).1 0 4 [2, 1]).1.inputs[0]? = some pin2 ∧
      countKey pin2.partial_sigs 4 = 1 ∧
      btLookup pin2.partial_sigs 4 = some [2, 1] :=
  C9_idempotent_signature_insertion ⟨[⟨0, 0⟩], [⟨[(4, [1])], none, none, none⟩]⟩
    0 4 [2, 1] ⟨[(4, [1])], none, none, none⟩ (by rfl) (by simp [sortedMap])

/-- C10: the satisfier's signature lookup is total over arbitrary stored
bytes: it answers `none` (never an error) when the raw bytes stored for the
key are empty, and when the bytes before the final sighash-flag byte are not
a valid DER signature; `add_signature` itself accepts any bytes for any
in-bounds index without validation. -/
theorem C10_lookup_sig_total_unvalidated (E : Ext) (s : RevaultInputSatisfier) (pk : Nat) :
    (btLookup s.sigmap pk = some [] → lookup_sig E s pk = none) ∧
    (∀ bs b, btLookup s.sigmap pk = some (bs ++ [b]) → E.derParse bs = none →
      lookup_sig E s pk = none) ∧
    (∀ p : Psbt, ∀ i : Nat, ∀ raw : Bytes, i < p.inputs.length →
      ∃ old, (add_signature p i pk raw).2 = .ok old) := by
  refine ⟨?_, ?_, ?_⟩
  · intro h
    simp [lookup_sig, h, splitLast]
  · intro bs b h hparse
    simp [lookup_sig, h, splitLast_append, hparse]
  · intro p i raw hlt
    rcases hpin : p.inputs[i]? with _ | pin
    · rw [List.getElem?_eq_getElem hlt] at hpin
      cases hpin
    · exact ⟨(btInsert pin.partial_sigs pk raw).2, by simp [add_signature, hpin]⟩

end Transactions

namespace Transactions

open Revault

/-- `finalize` on a single-input record reduces to `finalizeInput` on that
input with the skeleton input's sequence. -/
theorem finalize_onePsbt (E : Ext) (sigs : List (Nat × Bytes)) (ws : Option Bytes)
    (utxo : Option TxOutM) (fw : Option (List Bytes)) (op seq : Nat) :
    finalize E (onePsbt sigs ws utxo fw op seq) =
      match finalizeInput E ⟨sigs, ws, utxo, fw⟩ seq with
      | none => none
      | some (.error e) => some (onePsbt sigs ws utxo fw op seq, some e)
      | some (.ok pin2) => some (⟨[⟨op, seq⟩], [pin2]⟩, none) := by
  rcases hf : finalizeInput E ⟨sigs, ws, utxo, fw⟩ seq with _ | r
  · simp [finalize, onePsbt, finalizeInputs, hf]
  · rcases r with e | pin2 <;> simp [finalize, onePsbt, finalizeInputs, hf]

/-- C5: the key-hash finalization path.  For a single-input record spending
a pay-to-witness-pubkey-hash output with hash `h`: when the satisfier's hash
index resolves `h` to a key with a usable signature, `finalize` succeeds and
sets that input's witness to exactly the two elements DER-signature‖flag-byte
then serialized public key; when no key hashes to `h` it fails with the
unknown-key error, and when the resolved key has no usable signature it fails
with the missing-signature error, leaving the record unchanged in both
failure cases. -/
theorem C5_keyhash_finalization (E : Ext) (sigs : List (Nat × Bytes)) (ws : Option Bytes)
    (v op seq h : Nat) :
    (∀ pk sig flag, lookup_pkh_pk E ⟨sigs, seq⟩ h = some pk →
      lookup_sig E ⟨sigs, seq⟩ pk = some (sig, flag) →
      finalize E (onePsbt sigs ws (some ⟨v, .p2wpkh h⟩) none op seq) =
        some (⟨[⟨op, seq⟩], [⟨sigs, ws, some ⟨v, .p2wpkh h⟩,
          some [E.derSerialize sig ++ [flag], E.pkBytes pk]⟩]⟩, none)) ∧
    (lookup_pkh_pk E ⟨sigs, seq⟩ h = none →
      finalize E (onePsbt sigs ws (some ⟨v, .p2wpkh h⟩) none op seq) =
        some (onePsbt sigs ws (some ⟨v, .p2wpkh h⟩) none op seq,
              some .unknownKeyForHash)) ∧
    (∀ pk, lookup_pkh_pk E ⟨sigs, seq⟩ h = some pk →
      lookup_sig E ⟨sigs, seq⟩ pk = none →
      finalize E (onePsbt sigs ws (some ⟨v, .p2wpkh h⟩) none op seq) =
        some (onePsbt sigs ws (some ⟨v, .p2wpkh h⟩) none op seq,
              some .missingSignatureForKey)) := by
  refine ⟨?_, ?_, ?_⟩
  · intro pk sig flag hpk hsg
    rw [finalize_onePsbt]
    simp [finalizeInput, hpk, hsg]
  · intro hpk
    rw [finalize_onePsbt]
    simp [finalizeInput, hpk]
  · intro pk hpk hsg
    rw [finalize_onePsbt]
    simp [finalizeInput, hpk, hsg]

/-- C6: the script-hash finalization path.  For a single-input record
spending a pay-to-witness-script-hash output: a missing witness script, an
unparsable witness script, and an unsatisfiable policy each fail `finalize`
with their respective error, leaving the record unchanged; and when the
satisfaction algorithm yields a stack, the final witness is exactly that
stack with the serialized witness script appended as the last element. -/
theorem C6_scripthash_finalization (E : Ext) (sigs : List (Nat × Bytes))
    (v op seq : Nat) :
    (finalize E (onePsbt sigs none (some ⟨v, .p2wsh⟩) none op seq) =
       some (onePsbt sigs none (some ⟨v, .p2wsh⟩) none op seq,
             some .missingWitnessScript)) ∧
    (∀ script, E.msParse script = none →
       finalize E (onePsbt sigs (some script) (some ⟨v, .p2wsh⟩) none op seq) =
         some (onePsbt sigs (some script) (some ⟨v, .p2wsh⟩) none op seq,
               some .unparsableWitnessScript)) ∧
    (∀ script pol, E.msParse script = some pol →
       satisfyPolicy E ⟨sigs, seq⟩ pol = some none →
       finalize E (onePsbt sigs (some script) (some ⟨v, .p2wsh⟩) none op seq) =
         some (onePsbt sigs (some script) (some ⟨v, .p2wsh⟩) none op seq,
               some .satisfactionFailed)) ∧
    (∀ script pol w, E.msParse script = some pol →
       satisfyPolicy E ⟨sigs, seq⟩ pol = some (some w) →
       finalize E (onePsbt sigs (some script) (some ⟨v, .p2wsh⟩) none op seq) =
         some (⟨[⟨op, seq⟩], [⟨sigs, some script, some ⟨v, .p2wsh⟩,
                some (w ++ [E.msEncode pol])⟩]⟩, none)) := by
  refine ⟨?_, ?_, ?_, ?_⟩
  · rw [finalize_onePsbt]
    simp [finalizeInput]
  · intro script hmp
    rw [finalize_onePsbt]
    simp [finalizeInput, hmp]
  · intro script pol hmp hsat
    rw [finalize_onePsbt]
    simp [finalizeInput, hmp, hsat]
  · intro script pol w hmp hsat
    rw [finalize_onePsbt]
    simp [finalizeInput, hmp, hsat]

end Transactions

namespace Transactions

open Revault

/-- C2: timelock gating of a Spend input.  For a single-input record whose
witness script parses to the unvault policy with relative-timelock value `C`,
holding usable signatures for the whole manager+cosigner quorum but missing
the first stakeholder's signature (so only the timelocked branch can be
taken): `finalize` fails with the policy-satisfaction error whenever the
input's sequence is strictly below `C`, and succeeds (writing a final
witness) when the sequence is exactly `C`.  `check_older` compares with `≥`,
the BIP68-consensus semantics. -/
theorem C2_timelock_gating (E : Ext) (sigs : List (Nat × Bytes)) (ws : Bytes)
    (v op stk mgr : Nat) (stks mgrsCos : List Nat) (C seq : Nat)
    (hparse : E.msParse ws = some (unvaultPolicy stk stks mgr mgrsCos C))
    (hcsv : C &&& (1 <<< 22) = 0)
    (hquorum : ∀ k ∈ mgr :: mgrsCos, (lookup_sig E ⟨sigs, seq⟩ k).isSome)
    (hmissing : lookup_sig E ⟨sigs, seq⟩ stk = none) :
    (seq < C →
      finalize E (onePsbt sigs (some ws) (some ⟨v, .p2wsh⟩) none op seq) =
        some (onePsbt sigs (some ws) (some ⟨v, .p2wsh⟩) none op seq,
              some .satisfactionFailed)) ∧
    (seq = C →
      ∃ w, finalize E (onePsbt sigs (some ws) (some ⟨v, .p2wsh⟩) none op seq) =
        some (⟨[⟨op, seq⟩], [⟨sigs, some ws, some ⟨v, .p2wsh⟩, some w⟩]⟩, none)) := by
  have hA : satisfyPolicy E ⟨sigs, seq⟩ (allKeys stk stks) = some none := by
    unfold allKeys
    exact satisfy_foldlAnd_none E _ stks _ (by simp only [satisfyPolicy, hmissing])
  obtain ⟨⟨sg0, fl0⟩, hsg0⟩ :=
    Option.isSome_iff_exists.mp (hquorum mgr (List.mem_cons_self _ _))
  obtain ⟨w, hB⟩ : ∃ w, satisfyPolicy E ⟨sigs, seq⟩ (allKeys mgr mgrsCos) =
      some (some w) := by
    unfold allKeys
    exact satisfy_foldlAnd_some E _ mgrsCos _ [E.derSerialize sg0 ++ [fl0]]
      (by simp only [satisfyPolicy, hsg0])
      (fun k hk => hquorum k (List.mem_cons_of_mem _ hk))
  have hold : (⟨sigs, seq⟩ : RevaultInputSatisfier).check_older C =
      some (decide (seq ≥ C)) := by
    have h4 : C &&& 4194304 = 0 := by simpa using hcsv
    simp [RevaultInputSatisfier.check_older, h4]
  constructor
  · intro hlt
    have hfalse : decide (seq ≥ C) = false := by simp; omega
    have hsat : satisfyPolicy E ⟨sigs, seq⟩ (unvaultPolicy stk stks mgr mgrsCos C) =
        some none := by
      simp [unvaultPolicy, satisfyPolicy, hA, hB, hold, hfalse]
    rw [finalize_onePsbt]
    simp [finalizeInput, hparse, hsat]
  · intro heq
    subst heq
    have htrue : decide (seq ≥ seq) = true := by simp
    have hsat : satisfyPolicy E ⟨sigs, seq⟩ (unvaultPolicy stk stks mgr mgrsCos seq) =
        some (some (w ++ [])) := by
      simp [unvaultPolicy, satisfyPolicy, hA, hB, hold, htrue]
    refine ⟨(w ++ []) ++ [E.msEncode (unvaultPolicy stk stks mgr mgrsCos seq)], ?_⟩
    rw [finalize_onePsbt]
    simp only [finalizeInput, hparse, hsat]

/-- C2 witness: the theorem applied with `extUnvault` (unvault policy
`or(key 1, and(and(key 2, key 3), older 5))`) and the manager+cosigner
signatures for keys 2 and 3, at sequence 4 < 5: finalization fails with the
policy-satisfaction error and the record is unchanged. -/
theorem C2_witness :
    finalize extUnvault (onePsbt sigsQuorum (some [7]) (some ⟨7000, .p2wsh⟩) none 0 4) =
      some (onePsbt sigsQuorum (some [7]) (some ⟨7000, .p2wsh⟩) none 0 4,
            some .satisfactionFailed) :=
  (C2_timelock_gating extUnvault sigsQuorum [7] 7000 0 1 2 [] [3] 5 4
    (by rfl) (by decide) (by decide) (by rfl)).1 (by decide)

end Transactions

namespace Transactions

open Revault

/-- C1 counterexample: on the two-input record `psbtHalfGood` (first input
satisfiable via the key-hash path, second unsatisfiable for lack of a
signature)
`finalize` returns an error, yet afterwards the first input's final witness
is set — the record is not exactly as it was before the call, refuting the
claimed atomicity. -/
theorem C1_counterexample :
    finalize extId psbtHalfGood = some (psbtHalfGoodAfter, some .unknownKeyForHash) ∧
    psbtHalfGoodAfter ≠ psbtHalfGood ∧
    psbtHalfGoodAfter.inputs[0]?.map PsbtIn.final_script_witness =
      some (some [[9, 1], [5]]) ∧
    psbtHalfGood.inputs[0]?.map PsbtIn.final_script_witness = some none :=
  ⟨by rfl, by decide, by rfl, by rfl⟩

/-- C1 (amended): `finalize` is not atomic.  When it returns an error, the
record is left as follows: on an input-count mismatch nothing changed; on a
per-input failure at index `i`, the failing input and every later input are
unchanged, while every input before `i` keeps its freshly written final
witness — its signature map, witness script and witness utxo unchanged, so
the caller may still add more signatures and retry. -/
theorem C1_finalize_error_partial_write (E : Ext) (p p2 : Psbt) (e : Err)
    (h : finalize E p = some (p2, some e)) :
    (p.inputs.length ≠ p.tx_inputs.length ∧ p2 = p) ∨
    ∃ i, i < (p.inputs.zip (p.tx_inputs.map TxInM.sequence)).length ∧
      p2.tx_inputs = p.tx_inputs ∧
      (∀ j, i ≤ j → p2.inputs[j]? = p.inputs[j]?) ∧
      (∃ pin seq, (p.inputs.zip (p.tx_inputs.map TxInM.sequence))[i]? = some (pin, seq) ∧
        finalizeInput E pin seq = some (.error e)) ∧
      (∀ j, j < i → ∃ pin seq pin2,
        (p.inputs.zip (p.tx_inputs.map TxInM.sequence))[j]? = some (pin, seq) ∧
        finalizeInput E pin seq = some (.ok pin2) ∧ p2.inputs[j]? = some pin2 ∧
        pin2.partial_sigs = pin.partial_sigs ∧ pin2.witness_script = pin.witness_script ∧
        pin2.witness_utxo = pin.witness_utxo) := by
  unfold finalize at h
  by_cases hlen : p.inputs.length ≠ p.tx_inputs.length
  · rw [if_pos hlen] at h
    exact Or.inl ⟨hlen, (congrArg Prod.fst (Option.some.inj h)).symm⟩
  · rw [if_neg hlen] at h
    push_neg at hlen
    rcases hfi : finalizeInputs E (p.inputs.zip (p.tx_inputs.map TxInM.sequence))
      with _ | r
    · rw [hfi] at h; cases h
    · rw [hfi] at h
      obtain ⟨ins, err⟩ := r
      have h' := Option.some.inj h
      have hp2 : p2 = { p with inputs := ins } := (congrArg Prod.fst h').symm
      have herr : err = some e := congrArg Prod.snd h'
      rw [herr] at hfi
      obtain ⟨i, hi, hsuf, hfail, hpre⟩ := finalizeInputs_error_spec hfi
      have hle : p.inputs.length ≤ (p.tx_inputs.map TxInM.sequence).length := by
        rw [List.length_map]; omega
      refine Or.inr ⟨i, hi, ?_, ?_, hfail, ?_⟩
      · rw [hp2]
      · intro j hj
        rw [hp2]
        show ins[j]? = p.inputs[j]?
        rw [hsuf j hj, List.map_fst_zip _ _ hle]
      · intro j hj
        obtain ⟨pin, seq, pin2, hat, hok, hat2⟩ := hpre j hj
        obtain ⟨f1, f2, f3⟩ := finalizeInput_ok_frame hok
        exact ⟨pin, seq, pin2, hat, hok, by rw [hp2]; exact hat2, f1, f2, f3⟩

/-- C1 witness: the amended theorem applied to the concrete record
`psbtHalfGood` and the state `finalize` leaves it in. -/
theorem C1_witness :
    (psbtHalfGood.inputs.length ≠ psbtHalfGood.tx_inputs.length ∧
       psbtHalfGoodAfter = psbtHalfGood) ∨
    ∃ i, i < (psbtHalfGood.inputs.zip
        (psbtHalfGood.tx_inputs.map TxInM.sequence)).length ∧
      psbtHalfGoodAfter.tx_inputs = psbtHalfGood.tx_inputs ∧
      (∀ j, i ≤ j → psbtHalfGoodAfter.inputs[j]? = psbtHalfGood.inputs[j]?) ∧
      (∃ pin seq, (psbtHalfGood.inputs.zip
          (psbtHalfGood.tx_inputs.map TxInM.sequence))[i]? = some (pin, seq) ∧
        finalizeInput extId pin seq = some (.error .unknownKeyForHash)) ∧
      (∀ j, j < i → ∃ pin seq pin2, (psbtHalfGood.inputs.zip
          (psbtHalfGood.tx_inputs.map TxInM.sequence))[j]? = some (pin, seq) ∧
        finalizeInput extId pin seq = some (.ok pin2) ∧
        psbtHalfGoodAfter.inputs[j]? = some pin2 ∧
        pin2.partial_sigs = pin.partial_sigs ∧ pin2.witness_script = pin.witness_script ∧
        pin2.witness_utxo = pin.witness_utxo) :=
  C1_finalize_error_partial_write extId psbtHalfGood psbtHalfGoodAfter
    .unknownKeyForHash (by rfl)

end Transactions

namespace Transactions

open Revault

/-- C3 counterexample: `check_older` given the required CSV value `2^22`
(seconds-based flag bit set) hits the `assert!` and aborts the process
(modelled as `none`) instead of returning a typed failure or `false` —
here even though the sequence comparison `4194305 ≥ 4194304` would have
succeeded. -/
theorem C3_counterexample :
    RevaultInputSatisfier.check_older ⟨[], 4194305⟩ 4194304 = none ∧
    (RevaultInputSatisfier.check_older ⟨[], 4194305⟩ 4194304).isSome = false :=
  ⟨by rfl, by rfl⟩

/-- C3 (amended): every engine operation returns a typed value, except that
the relative-timelock check aborts (`assert!`) when the required CSV value
has its seconds-based flag bit (bit 22) set.  When that bit is unset,
`check_older` returns the boolean `sequence ≥ csv` without aborting, and
`finalize` returns a typed result on any record all of whose parsed
witness-script policies carry only block-count (bit-22-clear)
relative-timelock constants. -/
theorem C3_no_abort_when_block_count (E : Ext) (p : Psbt)
    (s : RevaultInputSatisfier) (csv : Nat)
    (hcsv : csv &&& (1 <<< 22) = 0)
    (hpol : ∀ pin ∈ p.inputs, optPolicyOk E pin.witness_script = true) :
    s.check_older csv = some (decide (s.sequence ≥ csv)) ∧
    (finalize E p).isSome := by
  constructor
  · have h4 : csv &&& 4194304 = 0 := by simpa using hcsv
    simp [RevaultInputSatisfier.check_older, h4]
  · unfold finalize
    by_cases hlen : p.inputs.length ≠ p.tx_inputs.length
    · rw [if_pos hlen]
      rfl
    · rw [if_neg hlen]
      have hall : ∀ e ∈ p.inputs.zip (p.tx_inputs.map TxInM.sequence),
          optPolicyOk E e.1.witness_script = true := by
        intro e he
        exact hpol e.1 (List.of_mem_zip he).1
      obtain ⟨r, hr⟩ := Option.isSome_iff_exists.mp
        (finalizeInputs_isSome E _ hall)
      obtain ⟨ins, err⟩ := r
      simp [hr]

/-- C3 witness: the amended theorem at the block-count CSV value 42 and the
concrete record `psbtHalfGood`, none of whose inputs carries a witness
script. -/
theorem C3_witness :
    (⟨[], 7⟩ : RevaultInputSatisfier).check_older 42 = some (decide ((7 : Nat) ≥ 42)) ∧
    (finalize extId psbtHalfGood).isSome :=
  C3_no_abort_when_block_count extId psbtHalfGood ⟨[], 7⟩ 42 (by decide) (by decide)

end Transactions

namespace Transations

theorem spendTxIns_ok (csv : Nat) (ps : List RevaultPrevout)
    (h : ∀ pv ∈ ps, isUnvaultPrevout pv = true) :
    ∃ l, spendTxIns csv ps = .ok l ∧ l.length = ps.length ∧
      ∀ t ∈ l, t.sequence = csv := by
  induction ps with
  | nil => exact ⟨[], rfl, rfl, by simp⟩
  | cons pv rest ih =>
    obtain ⟨l, hl, hlen, hseq⟩ := ih fun q hq => h q (List.mem_cons_of_mem _ hq)
    rcases pv with o | o | o | o
    · exact absurd (h _ (List.mem_cons_self _ _)) (by simp [isUnvaultPrevout])
    · refine ⟨⟨o, csv⟩ :: l, by simp [spendTxIns, hl], by simp [hlen], ?_⟩
      intro t ht
      rcases List.mem_cons.mp ht with rfl | ht2
      · rfl
      · exact hseq t ht2
    · exact absurd (h _ (List.mem_cons_self _ _)) (by simp [isUnvaultPrevout])
    · exact absurd (h _ (List.mem_cons_self _ _)) (by simp [isUnvaultPrevout])

theorem spendTxIns_err (csv : Nat) (ps : List RevaultPrevout)
    (h : ¬ ∀ pv ∈ ps, isUnvaultPrevout pv = true) :
    spendTxIns csv ps = .error .transactionCreation := by
  induction ps with
  | nil => exact absurd (by simp) h
  | cons pv rest ih =>
    rcases pv with o | o | o | o
    · rfl
    · have hrest : ¬ ∀ pv ∈ rest, isUnvaultPrevout pv = true := by
        intro hall
        refine h ?_
        intro q hq
        rcases List.mem_cons.mp hq with rfl | hq2
        · rfl
        · exact hall q hq2
      simp [spendTxIns, ih hrest]
    · rfl
    · rfl

theorem spendTxIns_sequence (csv : Nat) (ps : List RevaultPrevout) (l : List TxIn)
    (h : spendTxIns csv ps = .ok l) : ∀ t ∈ l, t.sequence = csv := by
  induction ps generalizing l with
  | nil =>
    obtain rfl := Except.ok.inj h
    simp
  | cons pv rest ih =>
    rcases pv with o | o | o | o
    · exact Except.noConfusion h
    · simp only [spendTxIns] at h
      rcases hr : spendTxIns csv rest with e | l2
      · rw [hr] at h
        exact Except.noConfusion h
      · rw [hr] at h
        obtain rfl := Except.ok.inj h
        intro t ht
        rcases List.mem_cons.mp ht with rfl | ht2
        · rfl
        · exact ih l2 hr t ht2
    · exact Except.noConfusion h
    · exact Except.noConfusion h

theorem spendTxOuts_ok (os : List RevaultTxOut)
    (h : ∀ o ∈ os, isSpendOrChangeTxOut o = true) :
    ∃ l, spendTxOuts os = .ok l ∧ l.length = os.length := by
  induction os with
  | nil => exact ⟨[], rfl, rfl⟩
  | cons o rest ih =>
    obtain ⟨l, hl, hlen⟩ := ih fun q hq => h q (List.mem_cons_of_mem _ hq)
    rcases o with t | t | t | t | t
    · exact ⟨t :: l, by simp [spendTxOuts, hl], by simp [hlen]⟩
    · exact absurd (h _ (List.mem_cons_self _ _)) (by simp [isSpendOrChangeTxOut])
    · exact ⟨t :: l, by simp [spendTxOuts, hl], by simp [hlen]⟩
    · exact absurd (h _ (List.mem_cons_self _ _)) (by simp [isSpendOrChangeTxOut])
    · exact absurd (h _ (List.mem_cons_self _ _)) (by simp [isSpendOrChangeTxOut])

theorem spendTxOuts_err (os : List RevaultTxOut)
    (h : ¬ ∀ o ∈ os, isSpendOrChangeTxOut o = true) :
    spendTxOuts os = .error .transactionCreation := by
  induction os with
  | nil => exact absurd (by simp) h
  | cons o rest ih =>
    have hrest : isSpendOrChangeTxOut o = true →
        ¬ ∀ q ∈ rest, isSpendOrChangeTxOut q = true := by
      intro ho hall
      refine h ?_
      intro q hq
      rcases List.mem_cons.mp hq with rfl | hq2
      · exact ho
      · exact hall q hq2
    rcases o with t | t | t | t | t
    · simp [spendTxOuts, ih (hrest (by simp [isSpendOrChangeTxOut]))]
    · rfl
    · simp [spendTxOuts, ih (hrest (by simp [isSpendOrChangeTxOut]))]
    · rfl
    · rfl

end Transations

namespace Transations

/-- C7: kind restriction on the untyped (enum) construction path.  Each
constructor succeeds exactly on its allowed previous-output/output kinds —
producing a transaction of the right variant whose input and output counts
equal the number of supplied prevouts and outputs — and returns the
kind-mismatch construction error, producing no transaction, whenever any
supplied kind is disallowed. -/
theorem C7_kind_restriction :
    (∀ pv t0 t1, unvaultKindsOk pv t0 t1 = true →
       ∃ tx, new_unvault pv t0 t1 = .ok (.unvaultTransaction tx) ∧
         tx.input.length = 1 ∧ tx.output.length = 2) ∧
    (∀ pv t0 t1, unvaultKindsOk pv t0 t1 = false →
       new_unvault pv t0 t1 = .error .transactionCreation) ∧
    (∀ ps os csv, (∀ pv ∈ ps, isUnvaultPrevout pv = true) →
       (∀ o ∈ os, isSpendOrChangeTxOut o = true) →
       ∃ tx, new_spend ps os csv = .ok (.spendTransaction tx) ∧
         tx.input.length = ps.length ∧ tx.output.length = os.length) ∧
    (∀ ps os csv, ¬ ((∀ pv ∈ ps, isUnvaultPrevout pv = true) ∧
        (∀ o ∈ os, isSpendOrChangeTxOut o = true)) →
       new_spend ps os csv = .error .transactionCreation) ∧
    (∀ ps os, cancelKindsOk ps os = true →
       ∃ tx, new_cancel ps os = .ok (.cancelTransaction tx) ∧
         tx.input.length = ps.length ∧ tx.output.length = os.length) ∧
    (∀ ps os, cancelKindsOk ps os = false →
       new_cancel ps os = .error .transactionCreation) ∧
    (∀ ps os, emergencyKindsOk ps os = true →
       ∃ tx, new_emergency ps os = .ok (.emergencyTransaction tx) ∧
         tx.input.length = ps.length ∧ tx.output.length = os.length) ∧
    (∀ ps os, emergencyKindsOk ps os = false →
       new_emergency ps os = .error .transactionCreation) := by
  refine ⟨?_, ?_, ?_, ?_, ?_, ?_, ?_, ?_⟩
  · intro pv t0 t1 h
    rcases pv with o | o | o | o <;> rcases t0 with a | a | a | a | a <;>
      rcases t1 with b | b | b | b | b <;>
      first
        | exact ⟨_, rfl, rfl, rfl⟩
        | simp [unvaultKindsOk] at h
  · intro pv t0 t1 h
    rcases pv with o | o | o | o <;> rcases t0 with a | a | a | a | a <;>
      rcases t1 with b | b | b | b | b <;>
      first
        | rfl
        | simp [unvaultKindsOk] at h
  · intro ps os csv h1 h2
    obtain ⟨li, hli, hlen1, -⟩ := spendTxIns_ok csv ps h1
    obtain ⟨lo, hlo, hlen2⟩ := spendTxOuts_ok os h2
    exact ⟨⟨2, 0, li, lo⟩, by simp [new_spend, hli, hlo], hlen1, hlen2⟩
  · intro ps os csv h
    by_cases h1 : ∀ pv ∈ ps, isUnvaultPrevout pv = true
    · have h2 : ¬ ∀ o ∈ os, isSpendOrChangeTxOut o = true := fun h2 => h ⟨h1, h2⟩
      obtain ⟨li, hli, -, -⟩ := spendTxIns_ok csv ps h1
      simp [new_spend, hli, spendTxOuts_err os h2]
    · simp [new_spend, spendTxIns_err csv ps h1]
  · intro ps os h
    unfold cancelKindsOk at h
    rw [Bool.and_eq_true] at h
    obtain ⟨h1, h2⟩ := h
    split at h1
    · split at h2
      · exact ⟨_, rfl, rfl, rfl⟩
      · simp at h2
    · split at h2
      · exact ⟨_, rfl, rfl, rfl⟩
      · simp at h2
    · simp at h1
  · intro ps os h
    unfold new_cancel
    split
    · simp [cancelKindsOk] at h
    · simp [cancelKindsOk] at h
    · rfl
  · intro ps os h
    unfold emergencyKindsOk at h
    rw [Bool.and_eq_true] at h
    obtain ⟨h1, h2⟩ := h
    split at h1
    · split at h2
      · exact ⟨_, rfl, rfl, rfl⟩
      · simp at h2
    · split at h2
      · exact ⟨_, rfl, rfl, rfl⟩
      · simp at h2
    · split at h2
      · exact ⟨_, rfl, rfl, rfl⟩
      · simp at h2
    · split at h2
      · exact ⟨_, rfl, rfl, rfl⟩
      · simp at h2
    · simp at h1
  · intro ps os h
    unfold new_emergency
    split
    · simp [emergencyKindsOk] at h
    · simp [emergencyKindsOk] at h
    · simp [emergencyKindsOk] at h
    · simp [emergencyKindsOk] at h
    · rfl

/-- C8: sequence assignment.  Every input of a cancel or (unvault-)emergency
transaction built by `new_cancel` / `new_emergency` — with or without the
optional fee-bump input — has its sequence set to the replace-by-fee
constant `u32::MAX - 2`, and every input of a spend transaction built by
`new_spend` has its sequence set to the caller-supplied relative-timelock
value. -/
theorem C8_sequence_assignment :
    (∀ ps os rtx, new_cancel ps os = .ok rtx →
       ∀ t ∈ rtx.txInputs, t.sequence = RBF_SEQUENCE) ∧
    (∀ ps os rtx, new_emergency ps os = .ok rtx →
       ∀ t ∈ rtx.txInputs, t.sequence = RBF_SEQUENCE) ∧
    (∀ ps os csv rtx, new_spend ps os csv = .ok rtx →
       ∀ t ∈ rtx.txInputs, t.sequence = csv) := by
  refine ⟨?_, ?_, ?_⟩
  · intro ps os rtx h
    unfold new_cancel at h
    split at h
    · obtain rfl := Except.ok.inj h
      intro t ht
      simp only [RevaultTransaction.txInputs, List.mem_cons, List.not_mem_nil,
        or_false] at ht
      subst ht
      rfl
    · obtain rfl := Except.ok.inj h
      intro t ht
      simp only [RevaultTransaction.txInputs, List.mem_cons, List.not_mem_nil,
        or_false] at ht
      rcases ht with rfl | rfl <;> rfl
    · exact Except.noConfusion h
  · intro ps os rtx h
    unfold new_emergency at h
    split at h
    · obtain rfl := Except.ok.inj h
      intro t ht
      simp only [RevaultTransaction.txInputs, List.mem_cons, List.not_mem_nil,
        or_false] at ht
      subst ht
      rfl
    · obtain rfl := Except.ok.inj h
      intro t ht
      simp only [RevaultTransaction.txInputs, List.mem_cons, List.not_mem_nil,
        or_false] at ht
      rcases ht with rfl | rfl <;> rfl
    · obtain rfl := Except.ok.inj h
      intro t ht
      simp only [RevaultTransaction.txInputs, List.mem_cons, List.not_mem_nil,
        or_false] at ht
      subst ht
      rfl
    · obtain rfl := Except.ok.inj h
      intro t ht
      simp only [RevaultTransaction.txInputs, List.mem_cons, List.not_mem_nil,
        or_false] at ht
      rcases ht with rfl | rfl <;> rfl
    · exact Except.noConfusion h
  · intro ps os csv rtx h
    unfold new_spend at h
    rcases hti : spendTxIns csv ps with e | li
    · simp only [hti] at h
      exact Except.noConfusion h
    · simp only [hti] at h
      rcases hto : spendTxOuts os with e | lo
      · simp only [hto] at h
        exact Except.noConfusion h
      · simp only [hto] at h
        obtain rfl := Except.ok.inj h
        intro t ht
        refine spendTxIns_sequence csv ps li hti t ?_
        simpa [RevaultTransaction.txInputs] using ht

end Transations
